import Mathlib

/-!
Shallow embedding of the `memoryscanner` Go package.

Bytes and 64-bit addresses are modelled as `Nat`; the scanned address
ranges stay far below `2^64`, so unsigned wrap-around never fires on the
modelled inputs and the arithmetic is kept on `Nat`.  Fallible code is
modelled with `Option`.  The operating system (VirtualQueryEx /
ReadProcessMemory) is a parameter `OS` of the scan, and the scan records
its externally visible actions (cancellation checks, region queries,
memory reads, handler invocations) in an event trace.
-/

namespace MemoryScanner

/-- Go `if 'a' <= b && b <= 'z' { b -= 'a' - 'A' }` applied inside
`matchesAt` to both the pattern byte and the data byte. -/
def toUpperByte (b : Nat) : Nat :=
  if 97 ≤ b ∧ b ≤ 122 then b - 32 else b

/-- One uppercase hexadecimal digit, as produced by Go's `%02X` verb. -/
def hexDigitChar (n : Nat) : Char :=
  if n < 10 then Char.ofNat (48 + n) else Char.ofNat (55 + n)

/-- Two-digit uppercase hexadecimal rendering of a byte (`fmt.Sprintf("%02X", b)`
for `b < 256`). -/
def byteToHex (b : Nat) : String :=
  String.mk [hexDigitChar (b / 16), hexDigitChar (b % 16)]

/-- The token written by `StringToPattern` for position `i`: the wildcard
token for the `?` input byte (63) and for the right padding, the hex
encoding of the raw byte otherwise (pattern.go lines 24-39). -/
def patternTokenAt (bytes : List Nat) (i : Nat) : String :=
  match bytes[i]? with
  | some b => if b = 63 then "??" else byteToHex b
  | none => "??"

/-- Token sequence built by `StringToPattern` (pattern.go lines 12-42): empty
for empty input, otherwise one token per position `i < max (len input) minLength`. -/
def stringToPatternTokens (bytes : List Nat) (minLength : Nat) : List String :=
  if bytes = [] then []
  else (List.range (max bytes.length minLength)).map (patternTokenAt bytes)

/-- `StringToPattern`: the Go builder writes a single space before every
token but the first, i.e. it intercalates the tokens with `" "`. -/
def stringToPattern (bytes : List Nat) (minLength : Nat) : String :=
  " ".intercalate (stringToPatternTokens bytes minLength)

/-- `strings.Fields`: split on runs of whitespace, yielding the non-empty
maximal runs of non-whitespace characters (accumulator holds the current
run reversed). -/
def fieldsAux : List Char → List Char → List String
  | [], acc => if acc = [] then [] else [String.mk acc.reverse]
  | c :: cs, acc =>
    if c.isWhitespace then
      if acc = [] then fieldsAux cs []
      else String.mk acc.reverse :: fieldsAux cs []
    else fieldsAux cs (c :: acc)

/-- `strings.Fields` on a pattern string. -/
def fields (s : String) : List String := fieldsAux s.data []

/-- Value of one hexadecimal digit as accepted by Go's `encoding/hex`
(`0-9`, `a-f`, `A-F`); `none` on any other character. -/
def hexDigitVal (c : Char) : Option Nat :=
  if 48 ≤ c.toNat ∧ c.toNat ≤ 57 then some (c.toNat - 48)
  else if 97 ≤ c.toNat ∧ c.toNat ≤ 102 then some (c.toNat - 87)
  else if 65 ≤ c.toNat ∧ c.toNat ≤ 70 then some (c.toNat - 55)
  else none

/-- `hex.DecodeString(part)` restricted to the success case used by
`NewPatternMatcher`: exactly one decoded byte, i.e. the token is exactly
two hexadecimal digits.  Any other shape (odd length, wrong length,
non-hex character) is the failure case `err != nil || len(decoded) != 1`. -/
def decodeHexByte (t : String) : Option Nat :=
  match t.data with
  | [c1, c2] =>
    match hexDigitVal c1, hexDigitVal c2 with
    | some h, some l => some (16 * h + l)
    | _, _ => none
  | _ => none

/-- The token loop of `NewPatternMatcher` (pattern.go lines 61-71): each
token is either the wildcard `"??"` (mask true, byte left at the zero
value) or one hex byte; the first invalid token makes the whole
construction fail. -/
def parseTokens : List String → Option (List (Nat × Bool))
  | [] => some []
  | t :: ts =>
    if t = "??" then (parseTokens ts).map (fun r => (0, true) :: r)
    else
      match decodeHexByte t with
      | some b => (parseTokens ts).map (fun r => (b, false) :: r)
      | none => none

/-- `PatternMatcher` (pattern.go lines 45-49). -/
structure PatternMatcher where
  patternBytes : List Nat
  wildcardMask : List Bool
  patternLength : Nat
  deriving DecidableEq

/-- `NewPatternMatcher` (pattern.go lines 52-78); `none` is the error case. -/
def NewPatternMatcher (pattern : String) : Option PatternMatcher :=
  let parts := fields pattern
  if parts = [] then none
  else
    match parseTokens parts with
    | none => none
    | some tks =>
      some ⟨tks.map Prod.fst, tks.map Prod.snd, parts.length⟩

/-- `matchesAt` (pattern.go lines 99-124): position `pos` matches when every
pattern index `j` is a wildcard or compares equal, after uppercasing both
sides when `ignoreCase` is set.  List indexing uses the `getD` defaults
only out of range; the Go arrays always have length `patternLength`. -/
def matchesAt (pm : PatternMatcher) (data : List Nat) (pos : Nat) (ignoreCase : Bool) : Bool :=
  (List.range pm.patternLength).all fun j =>
    pm.wildcardMask.getD j false ||
      (let dataByte := data.getD (pos + j) 0
       let patternByte := pm.patternBytes.getD j 0
       if ignoreCase then toUpperByte dataByte == toUpperByte patternByte
       else dataByte == patternByte)

/-- `FindMatches` (pattern.go lines 81-96): empty result for the empty or
too-long pattern, otherwise all matching offsets `0 ≤ i ≤ len data - patternLength`
in increasing order. -/
def findMatches (pm : PatternMatcher) (data : List Nat) (ignoreCase : Bool) : List Nat :=
  if pm.patternLength = 0 ∨ pm.patternLength > data.length then []
  else (List.range (data.length - pm.patternLength + 1)).filter
    fun i => matchesAt pm data i ignoreCase

/-- Windows page-protection and state constants used by `isReadableRegion`. -/
def PAGE_NOACCESS : Nat := 0x01

/-- Windows `PAGE_READONLY`. -/
def PAGE_READONLY : Nat := 0x02

/-- Windows `PAGE_READWRITE`. -/
def PAGE_READWRITE : Nat := 0x04

/-- Windows `PAGE_EXECUTE_READ`. -/
def PAGE_EXECUTE_READ : Nat := 0x20

/-- Windows `PAGE_EXECUTE_READWRITE`. -/
def PAGE_EXECUTE_READWRITE : Nat := 0x40

/-- Windows `PAGE_GUARD` modifier bit. -/
def PAGE_GUARD : Nat := 0x100

/-- Windows `MEM_COMMIT`. -/
def MEM_COMMIT : Nat := 0x1000

/-- The fields of `windows.MemoryBasicInformation` that the scanner reads. -/
structure Region where
  BaseAddress : Nat
  RegionSize : Nat
  Protect : Nat
  State : Nat
  deriving DecidableEq

/-- `isReadableRegion` (scanner file lines 93-99): a bitwise test that the
protection shares a bit with one of the four readable protections, and
that the state is exactly `MEM_COMMIT`. -/
def isReadableRegion (mbi : Region) : Bool :=
  (mbi.Protect &&& (PAGE_READONLY ||| PAGE_READWRITE |||
      PAGE_EXECUTE_READ ||| PAGE_EXECUTE_READWRITE) != 0) &&
    (mbi.State == MEM_COMMIT)

/-- `Match`: an absolute address plus the copied bytes. -/
structure Match where
  Address : Nat
  Data : List Nat
  deriving DecidableEq

/-- `ScanOptions` (options file lines 32-43); the handler returns `false`
to request a stop. -/
structure ScanOptions where
  Pattern : String
  IgnoreCase : Bool
  MinAddress : Nat
  MaxAddress : Nat
  Handler : Match → Bool

/-- Externally visible actions of one scan, in program order: a
cancellation-token check (recording what the token showed), a
`VirtualQueryEx` call, a `ReadProcessMemory` call, and a handler
invocation. -/
inductive Event where
  | check (n : Nat) (signalled : Bool)
  | query (addr : Nat)
  | read (base len : Nat)
  | invoke (m : Match)
  deriving DecidableEq

/-- Result of `Scan`: `ok` models a `nil` error, `invalidPattern` the
wrapped `NewPatternMatcher` error, `cancelled` the non-nil `ctx.Err()`. -/
inductive ScanOutcome where
  | ok
  | invalidPattern
  | cancelled
  deriving DecidableEq

/-- The operating-system facilities the scanner calls: `query a` models
`VirtualQueryEx` at address `a` (`none` = error, which breaks the walk);
`readMem base len` models `ReadProcessMemory`, returning the bytes
actually transferred (the empty list models `err != nil || bytesRead == 0`). -/
structure OS where
  query : Nat → Option Region
  readMem : Nat → Nat → List Nat

/-- Cursor advancement (scanner file lines 82-86): move to `base + size`,
and one unit further when the descriptor reports size zero. -/
def nextAddress (mbi : Region) : Nat :=
  let address := mbi.BaseAddress + mbi.RegionSize
  if mbi.RegionSize = 0 then address + 1 else address

/-- The match loop of `scanRegion` (scanner file lines 131-158): for each
offset, check the cancellation token (returning the non-nil `ctx.Err()`,
i.e. the `true` flag, when signalled), skip offsets whose slice would
overrun the buffer, copy the matched bytes, and invoke the handler; a
`false` handler result returns `nil` (the `false` flag) at once.  The
`Nat` argument counts cancellation checks so the token `ctx` can be a
function of the check index; the result is the event trace, the next
check index, and whether cancellation was observed. -/
def scanMatches (opts : ScanOptions) (pm : PatternMatcher) (ctx : Nat → Bool)
    (baseAddr : Nat) (buffer : List Nat) :
    List Nat → Nat → List Event × Nat × Bool
  | [], n => ([], n, false)
  | offset :: rest, n =>
    if ctx n then ([Event.check n true], n + 1, true)
    else
      if offset + pm.patternLength > buffer.length then
        let r := scanMatches opts pm ctx baseAddr buffer rest (n + 1)
        (Event.check n false :: r.1, r.2.1, r.2.2)
      else
        let m : Match := ⟨baseAddr + offset, (buffer.drop offset).take pm.patternLength⟩
        if opts.Handler m then
          let r := scanMatches opts pm ctx baseAddr buffer rest (n + 1)
          (Event.check n false :: Event.invoke m :: r.1, r.2.1, r.2.2)
        else ([Event.check n false, Event.invoke m], n + 1, false)

/-- `scanRegion` (scanner file lines 102-161): clamp the read to
`maxAddress`, bail out on an empty overlap, read the region (an empty
transfer is silently skipped), trim the buffer to the bytes transferred,
and run the match loop. -/
def scanRegion (os : OS) (opts : ScanOptions) (pm : PatternMatcher) (ctx : Nat → Bool)
    (baseAddr regionSize n : Nat) : List Event × Nat × Bool :=
  let readEnd := if baseAddr + regionSize > opts.MaxAddress then opts.MaxAddress
    else baseAddr + regionSize
  if readEnd ≤ baseAddr then ([], n, false)
  else
    let readLength := readEnd - baseAddr
    let buffer := (os.readMem baseAddr readLength).take readLength
    if buffer = [] then ([Event.read baseAddr readLength], n, false)
    else
      let r := scanMatches opts pm ctx baseAddr buffer
        (findMatches pm buffer opts.IgnoreCase) n
      (Event.read baseAddr readLength :: r.1, r.2.1, r.2.2)

/-- The region-walk loop of `Scan` (scanner file lines 59-89), with an
explicit fuel so that the model stays total even for operating-system
behaviours under which the Go loop diverges; `none` means the fuel ran
out before the loop finished. -/
def scanLoop (os : OS) (opts : ScanOptions) (pm : PatternMatcher) (ctx : Nat → Bool) :
    Nat → Nat → Nat → Option (List Event × ScanOutcome)
  | 0, _, _ => none
  | fuel + 1, address, n =>
    if address < opts.MaxAddress then
      if ctx n then some ([Event.check n true], ScanOutcome.cancelled)
      else
        match os.query address with
        | none => some ([Event.check n false, Event.query address], ScanOutcome.ok)
        | some mbi =>
          if isReadableRegion mbi then
            let r := scanRegion os opts pm ctx mbi.BaseAddress mbi.RegionSize (n + 1)
            if r.2.2 then
              some (Event.check n false :: Event.query address :: r.1, ScanOutcome.cancelled)
            else
              match scanLoop os opts pm ctx fuel (nextAddress mbi) r.2.1 with
              | none => none
              | some (evs, out) =>
                some (Event.check n false :: Event.query address :: (r.1 ++ evs), out)
          else
            match scanLoop os opts pm ctx fuel (nextAddress mbi) (n + 1) with
            | none => none
            | some (evs, out) =>
              some (Event.check n false :: Event.query address :: evs, out)
    else some ([], ScanOutcome.ok)

/-- `Scan` (scanner file lines 49-90): compile the pattern (an invalid
pattern fails before any process interaction), then walk the regions from
`MinAddress`. -/
def Scan (os : OS) (ctx : Nat → Bool) (opts : ScanOptions) (fuel : Nat) :
    Option (List Event × ScanOutcome) :=
  match NewPatternMatcher opts.Pattern with
  | none => some ([], ScanOutcome.invalidPattern)
  | some pm => scanLoop os opts pm ctx fuel opts.MinAddress 0

/-- Events that the spec requires a cancellation check to precede:
region queries and handler invocations. -/
def needsCheck : Event → Bool
  | Event.query _ => true
  | Event.invoke _ => true
  | _ => false

/-- An event recording that a cancellation check found the token clear. -/
def isCheckFalse : Event → Bool
  | Event.check _ false => true
  | _ => false

/-- `guardedAfter prev evs` holds when every query and handler-invocation
event of `evs` is immediately preceded by a cancellation check that found
the token clear (`prev` is the event just before `evs`, if any). -/
def guardedAfter : Event → List Event → Bool
  | _, [] => true
  | prev, e :: rest => (!needsCheck e || isCheckFalse prev) && guardedAfter e rest

/-- Address of a handler invocation event. -/
def invokeAddress : Event → Option Nat
  | Event.invoke m => some m.Address
  | _ => none

/-- Fixture: two adjacent readable regions of four bytes, each starting
with the byte `0x41`. -/
def os1 : OS :=
  { query := fun a =>
      if a < 4 then some ⟨0, 4, PAGE_READONLY, MEM_COMMIT⟩
      else if a < 8 then some ⟨4, 4, PAGE_READONLY, MEM_COMMIT⟩
      else none
    readMem := fun _ _ => [65, 66, 66, 66] }

/-- Fixture: search for the single byte `0x41` over `[0, 8)` with a
handler that requests a stop at the first match. -/
def opts1 : ScanOptions :=
  { Pattern := "41", IgnoreCase := false, MinAddress := 0, MaxAddress := 8,
    Handler := fun _ => false }

/-- Fixture: one committed region whose protection is
`PAGE_READONLY ||| PAGE_GUARD`, i.e. a guard page over readable memory. -/
def os3 : OS :=
  { query := fun a =>
      if a < 4 then some ⟨0, 4, PAGE_READONLY ||| PAGE_GUARD, MEM_COMMIT⟩ else none
    readMem := fun _ _ => [1, 2, 3, 4] }

/-- Fixture: one readable region of eight bytes where the byte at address
`a` is `a + 1`, so the byte `0x05` lives exactly at address 4. -/
def os4 : OS :=
  { query := fun a => if a < 8 then some ⟨0, 8, PAGE_READONLY, MEM_COMMIT⟩ else none
    readMem := fun base len => (List.range len).map (fun i => base + i + 1) }

/-- Fixture: search for the byte `0x05` with `MaxAddress = 4`; the match
would end exactly at `MaxAddress`. -/
def opts4 : ScanOptions :=
  { Pattern := "05", IgnoreCase := false, MinAddress := 0, MaxAddress := 4,
    Handler := fun _ => true }

/-- Fixture: a degenerate operating system whose query always reports the
descriptor `base 0, size 0` — legal output of the modelled query type,
violating the VirtualQueryEx convention that the descriptor covers the
queried address. -/
def os9 : OS :=
  { query := fun _ => some ⟨0, 0, 0, 0⟩
    readMem := fun _ _ => [] }

/-- Fixture: scan `[5, 8)` (any options work; the pattern is `"41"`). -/
def opts9 : ScanOptions :=
  { Pattern := "41", IgnoreCase := false, MinAddress := 5, MaxAddress := 8,
    Handler := fun _ => true }

/-- Fixture: an operating system whose query always returns a one-byte
unreadable descriptor covering exactly the queried address, satisfying
the VirtualQueryEx convention. -/
def osGood : OS :=
  { query := fun a => some ⟨a, 1, 0, 0⟩
    readMem := fun _ _ => [] }

/-- The compiled matcher for the pattern `"41"`. -/
def pm41 : PatternMatcher := ⟨[65], [false], 1⟩

/-- C1: the claim says that once the handler returns "stop" on the k-th
match, no further region is queried or read and the handler is never
invoked again.  The code only returns `nil` from `scanRegion` on a stop,
so `Scan` continues the walk: on `os1`/`opts1` the handler stops at the
very first match (k = 1), yet the trace shows a second region query, a
second read, and a second handler invocation.  This contradicts the
documented contract of `MatchHandler` ("Return false to stop the scan"),
so the code, not the claim, is wrong. -/
theorem C1_code_eval :
    Scan os1 (fun _ => false) opts1 3 =
      some ([Event.check 0 false, Event.query 0, Event.read 0 4,
             Event.check 1 false, Event.invoke ⟨0, [65]⟩,
             Event.check 2 false, Event.query 4, Event.read 4 4,
             Event.check 3 false, Event.invoke ⟨4, [65]⟩], ScanOutcome.ok) ∧
    (([Event.check 0 false, Event.query 0, Event.read 0 4,
       Event.check 1 false, Event.invoke ⟨0, [65]⟩,
       Event.check 2 false, Event.query 4, Event.read 4 4,
       Event.check 3 false, Event.invoke ⟨4, [65]⟩] : List Event).filterMap
         invokeAddress).length = 2 := by decide

/-- C2 counterexample: with the cancellation token signalled, `Scan`
returns `ctx.Err()` — modelled `ScanOutcome.cancelled`, a non-nil error —
not the success (`nil` / `ScanOutcome.ok`) the claim asserts. -/
theorem C2_counterexample :
    Scan os1 (fun _ => true) opts1 3 = some ([Event.check 0 true], ScanOutcome.cancelled) ∧
    ScanOutcome.cancelled ≠ ScanOutcome.ok := by decide

/-- C4: the claim (and the `ScanOptions.MaxAddress` doc comment, which
says "inclusive") requires the byte at `MaxAddress` to be scanned.  The
code clamps the read at `readEnd = MaxAddress` and reads
`readEnd - base` bytes, so the byte at address 4 = `MaxAddress` is never
read: the trace shows a read of length 4 (addresses 0-3) and no match,
although the buffer extended by the byte at `MaxAddress` contains the
pattern ending exactly there (offset 4).  The code contradicts its own
documentation, so this is a code bug. -/
theorem C4_code_eval :
    Scan os4 (fun _ => false) opts4 3 =
      some ([Event.check 0 false, Event.query 0, Event.read 0 4], ScanOutcome.ok) ∧
    (NewPatternMatcher "05").map
      (fun pm => findMatches pm ((os4.readMem 0 5).take 5) false) = some [4] := by decide

/-- C3 counterexample: a committed guard page whose base protection is
readable (`Protect = PAGE_READONLY ||| PAGE_GUARD = 0x102`) is *not* one
of the four plain readable protections, and the claim says guard regions
are skipped without a read; but `isReadableRegion` is a bitwise test, so
the region passes and the scan issues a read for it. -/
theorem C3_counterexample :
    isReadableRegion ⟨0, 4, PAGE_READONLY ||| PAGE_GUARD, MEM_COMMIT⟩ = true ∧
    (PAGE_READONLY ||| PAGE_GUARD) ∉
      ([PAGE_READONLY, PAGE_READWRITE, PAGE_EXECUTE_READ, PAGE_EXECUTE_READWRITE] : List Nat) ∧
    (PAGE_READONLY ||| PAGE_GUARD) &&& PAGE_GUARD ≠ 0 ∧
    Scan os3 (fun _ => false) opts4 2 =
      some ([Event.check 0 false, Event.query 0, Event.read 0 4], ScanOutcome.ok) ∧
    Event.read 0 4 ∈ [Event.check 0 false, Event.query 0, Event.read 0 4] := by decide

/-- C9 counterexample: the claim asserts forward progress of at least one
address unit on every iteration for every descriptor sequence the query
can return.  The degenerate descriptor `base 0, size 0` returned at
cursor 5 moves the cursor to `nextAddress = 1 < 5` — a regression, not
progress — and with `os9` returning it everywhere the walk cycles and
exhausts any fuel (shown here for fuel 100) instead of terminating. -/
theorem C9_counterexample :
    nextAddress ⟨0, 0, 2, 4096⟩ = 1 ∧ (1 : Nat) < 5 ∧
    Scan os9 (fun _ => false) opts9 100 = none := by
  set_option maxRecDepth 4000 in decide

/-- C5: `FindMatches` returns exactly the offsets `i` with
`i + patternLength ≤ len data` (equivalently `0 ≤ i ≤ len data - patternLength`)
at which every non-wildcard pattern position `j` equals `data (i+j)` —
under ASCII-only uppercasing of both bytes when `ignoreCase` is set,
exact equality otherwise.  All such offsets are included (so overlapping
occurrences are all reported), and an empty or too-long pattern yields
the empty result rather than an error. -/
theorem C5_findMatches_characterization (pm : PatternMatcher) (data : List Nat) (ic : Bool) :
    (∀ i, i ∈ findMatches pm data ic ↔
      (0 < pm.patternLength ∧ i + pm.patternLength ≤ data.length ∧
        ∀ j < pm.patternLength, pm.wildcardMask.getD j false = true ∨
          (if ic then toUpperByte (data.getD (i + j) 0) = toUpperByte (pm.patternBytes.getD j 0)
           else data.getD (i + j) 0 = pm.patternBytes.getD j 0))) ∧
    (pm.patternLength = 0 ∨ data.length < pm.patternLength →
      findMatches pm data ic = []) := by
  constructor
  · intro i
    unfold findMatches
    by_cases h : pm.patternLength = 0 ∨ pm.patternLength > data.length
    · rw [if_pos h]
      simp only [List.not_mem_nil, false_iff]
      rintro ⟨h1, h2, -⟩
      omega
    · rw [if_neg h]
      push_neg at h
      simp only [List.mem_filter, List.mem_range, matchesAt, List.all_eq_true]
      constructor
      · rintro ⟨hi, hall⟩
        refine ⟨by omega, by omega, ?_⟩
        intro j hj
        have hj' := hall j hj
        rcases hw : pm.wildcardMask.getD j false with _ | _
        · right
          rw [hw] at hj'
          simp only [Bool.false_or] at hj'
          cases ic <;> simpa using hj'
        · left; rfl
      · rintro ⟨h0, hle, hall⟩
        refine ⟨by omega, ?_⟩
        intro j hj
        rcases hall j hj with hw | hcmp
        · rw [hw]; simp
        · cases ic <;> simp_all
  · intro h
    unfold findMatches
    rw [if_pos (by omega)]

/-- The handler invocations emitted by the match loop carry addresses
`baseAddr + offset` for a subsequence of the offset list, in order. -/
theorem scanMatches_invokeAddress_sublist (opts : ScanOptions) (pm : PatternMatcher)
    (ctx : Nat → Bool) (baseAddr : Nat) (buffer : List Nat) :
    ∀ offs n, List.Sublist
      ((scanMatches opts pm ctx baseAddr buffer offs n).1.filterMap invokeAddress)
      (offs.map (fun o => baseAddr + o)) := by
  intro offs
  induction offs with
  | nil => intro n; simp [scanMatches]
  | cons offset rest ih =>
    intro n
    rw [scanMatches]
    by_cases hc : ctx n
    · simp [hc, invokeAddress]
    · rw [if_neg hc]
      by_cases hg : offset + pm.patternLength > buffer.length
      · rw [if_pos hg]
        simp only [List.filterMap_cons, invokeAddress, List.map_cons]
        exact (ih (n + 1)).cons _
      · rw [if_neg hg]
        by_cases hh : opts.Handler ⟨baseAddr + offset, (buffer.drop offset).take pm.patternLength⟩
        · rw [if_pos hh]
          simp only [List.filterMap_cons, invokeAddress, List.map_cons]
          exact (ih (n + 1)).cons₂ _
        · rw [if_neg hh]
          simp only [List.filterMap_cons, List.filterMap_nil, invokeAddress, List.map_cons]
          exact (List.nil_sublist _).cons₂ _

/-- C10: the offset list returned by `FindMatches` is strictly increasing
(hence duplicate-free), and consequently the absolute addresses of the
handler invocations made while scanning a single region's buffer are
strictly increasing as well. -/
theorem C10_matches_strictly_increasing (pm : PatternMatcher) (data : List Nat) (ic : Bool) :
    List.Pairwise (· < ·) (findMatches pm data ic) ∧
    ∀ opts ctx baseAddr n, opts.IgnoreCase = ic →
      List.Pairwise (· < ·)
        ((scanMatches opts pm ctx baseAddr data (findMatches pm data ic) n).1.filterMap
          invokeAddress) := by
  have hpw : List.Pairwise (· < ·) (findMatches pm data ic) := by
    unfold findMatches
    split
    · exact List.Pairwise.nil
    · exact List.Pairwise.filter _ (List.pairwise_lt_range _)
  refine ⟨hpw, ?_⟩
  intro opts ctx baseAddr n _
  have hmap : List.Pairwise (· < ·) ((findMatches pm data ic).map (fun o => baseAddr + o)) := by
    rw [List.pairwise_map]
    exact hpw.imp (by omega)
  exact hmap.sublist (scanMatches_invokeAddress_sublist opts pm ctx baseAddr data _ n)

/-- C6: `StringToPattern` of the empty input is the empty pattern for any
`minLength`; for non-empty input the token sequence has length
`max (len input) minLength`, position `i` is the wildcard token when
input byte `i` is `?` (63) and the two-uppercase-hex-digit encoding of
the byte otherwise, and every position at or beyond the input length is
the wildcard token (right padding). -/
theorem C6_stringToPattern_characterization (bytes : List Nat) (minLength : Nat) :
    (bytes = [] → stringToPatternTokens bytes minLength = []) ∧
    (bytes ≠ [] →
      (stringToPatternTokens bytes minLength).length = max bytes.length minLength ∧
      (∀ i, i < bytes.length →
        (stringToPatternTokens bytes minLength)[i]? =
          some (if bytes.getD i 0 = 63 then "??" else byteToHex (bytes.getD i 0))) ∧
      (∀ i, bytes.length ≤ i → i < max bytes.length minLength →
        (stringToPatternTokens bytes minLength)[i]? = some "??")) := by
  constructor
  · intro h; simp [stringToPatternTokens, h]
  · intro h
    unfold stringToPatternTokens
    rw [if_neg h]
    refine ⟨by simp, ?_, ?_⟩
    · intro i hi
      rw [List.getElem?_map, List.getElem?_range (by omega)]
      simp only [Option.map_some']
      congr 1
      unfold patternTokenAt
      cases hbi : bytes[i]? with
      | none =>
        rw [List.getElem?_eq_none_iff] at hbi
        omega
      | some b =>
        have hb : bytes.getD i 0 = b := by
          rw [List.getD_eq_getElem?_getD, hbi]; rfl
        rw [hb]
    · intro i h1 h2
      rw [List.getElem?_map, List.getElem?_range h2]
      simp only [Option.map_some']
      congr 1
      unfold patternTokenAt
      rw [List.getElem?_eq_none h1]

/-- A token fails to decode as exactly one byte precisely when it is not
two characters long or contains a non-hexadecimal character. -/
theorem decodeHexByte_eq_none_iff (t : String) :
    decodeHexByte t = none ↔
      (t.data.length ≠ 2 ∨ ∃ c ∈ t.data, hexDigitVal c = none) := by
  rcases ht : t.data with _ | ⟨c1, _ | ⟨c2, _ | ⟨c3, rest⟩⟩⟩ <;>
    simp [decodeHexByte, ht]
  cases h1 : hexDigitVal c1 <;> cases h2 : hexDigitVal c2 <;> simp_all

/-- The token loop fails precisely when some non-wildcard token fails to
decode. -/
theorem parseTokens_eq_none_iff :
    ∀ parts : List String, parseTokens parts = none ↔
      ∃ t ∈ parts, t ≠ "??" ∧ decodeHexByte t = none := by
  intro parts
  induction parts with
  | nil => simp [parseTokens]
  | cons t ts ih =>
    rw [parseTokens]
    by_cases hw : t = "??"
    · rw [if_pos hw]
      cases h : parseTokens ts <;> simp_all
    · rw [if_neg hw]
      cases hd : decodeHexByte t
      · simp_all
      · cases h : parseTokens ts <;> simp_all

/-- `NewPatternMatcher` fails precisely when the token list is empty or
some token is invalid. -/
theorem NewPatternMatcher_eq_none_iff (pattern : String) :
    NewPatternMatcher pattern = none ↔
      fields pattern = [] ∨
        ∃ t ∈ fields pattern, t ≠ "??" ∧ decodeHexByte t = none := by
  unfold NewPatternMatcher
  by_cases h : fields pattern = []
  · simp [h]
  · simp only [h, if_false]
    cases hp : parseTokens (fields pattern) with
    | none => simp_all [parseTokens_eq_none_iff]
    | some tks =>
      have hne : ¬∃ t ∈ fields pattern, t ≠ "??" ∧ decodeHexByte t = none := by
        rw [← parseTokens_eq_none_iff]
        simp [hp]
      simp_all

/-- C7: `NewPatternMatcher` fails exactly when the whitespace-separated
token list is empty, or some token other than the wildcard `"??"` is not
exactly one valid hex byte (two hexadecimal characters); and when the
configured pattern is invalid, `Scan` returns the configuration error
with an empty event trace — before any region query or memory read. -/
theorem C7_invalid_pattern_error (pattern : String) :
    (NewPatternMatcher pattern = none ↔
      fields pattern = [] ∨
        ∃ t ∈ fields pattern, t ≠ "??" ∧
          (t.data.length ≠ 2 ∨ ∃ c ∈ t.data, hexDigitVal c = none)) ∧
    (∀ os ctx opts fuel, opts.Pattern = pattern →
      NewPatternMatcher pattern = none →
      Scan os ctx opts fuel = some ([], ScanOutcome.invalidPattern)) := by
  constructor
  · simp only [NewPatternMatcher_eq_none_iff, decodeHexByte_eq_none_iff]
  · intro os ctx opts fuel hp hnone
    unfold Scan
    rw [hp, hnone]

/-- Witness for C7 at the concrete invalid pattern `"zz"`. -/
theorem C7_witness :
    NewPatternMatcher "zz" = none ∧
    Scan os1 (fun _ => true)
      { Pattern := "zz", IgnoreCase := false, MinAddress := 0,
        MaxAddress := 8, Handler := fun _ => false } 3 =
      some ([], ScanOutcome.invalidPattern) := by
  have h := C7_invalid_pattern_error "zz"
  have hn : NewPatternMatcher "zz" = none := h.1.mpr (by decide)
  exact ⟨hn, h.2 os1 (fun _ => true) _ 3 rfl hn⟩

/-- Every check event emitted by the match loop records the token's
actual value at that check index. -/
theorem scanMatches_check_mem (opts : ScanOptions) (pm : PatternMatcher) (ctx : Nat → Bool)
    (baseAddr : Nat) (buffer : List Nat) :
    ∀ offs n k b,
      Event.check k b ∈ (scanMatches opts pm ctx baseAddr buffer offs n).1 → b = ctx k := by
  intro offs
  induction offs with
  | nil => intro n k b h; simp [scanMatches] at h
  | cons offset rest ih =>
    intro n k b h
    rw [scanMatches] at h
    cases hc : ctx n
    · simp only [hc, Bool.false_eq_true, if_false] at h
      by_cases hg : offset + pm.patternLength > buffer.length
      · rw [if_pos hg] at h
        simp only [List.mem_cons, Event.check.injEq] at h
        rcases h with ⟨hk, hb⟩ | h
        · rw [hb, hk, hc]
        · exact ih (n + 1) k b h
      · rw [if_neg hg] at h
        by_cases hh : opts.Handler ⟨baseAddr + offset, (buffer.drop offset).take pm.patternLength⟩
        · rw [if_pos hh] at h
          simp only [List.mem_cons, Event.check.injEq] at h
          rcases h with ⟨hk, hb⟩ | h | h
          · rw [hb, hk, hc]
          · exact absurd h (by simp)
          · exact ih (n + 1) k b h
        · rw [if_neg hh] at h
          simp only [List.mem_cons, List.not_mem_nil, or_false, Event.check.injEq] at h
          rcases h with ⟨hk, hb⟩ | h
          · rw [hb, hk, hc]
          · exact absurd h (by simp)
    · simp only [hc, if_true] at h
      simp only [List.mem_singleton, Event.check.injEq] at h
      rw [h.2, h.1, hc]

/-- A check that observed the signalled token is the final event of the
match loop's trace: nothing is queried, read or invoked after it. -/
theorem scanMatches_checkTrue_last (opts : ScanOptions) (pm : PatternMatcher) (ctx : Nat → Bool)
    (baseAddr : Nat) (buffer : List Nat) :
    ∀ offs n k,
      Event.check k true ∈ (scanMatches opts pm ctx baseAddr buffer offs n).1 →
      ∃ p, (scanMatches opts pm ctx baseAddr buffer offs n).1 = p ++ [Event.check k true] := by
  intro offs
  induction offs with
  | nil => intro n k h; simp [scanMatches] at h
  | cons offset rest ih =>
    intro n k h
    rw [scanMatches] at h
    rw [scanMatches]
    cases hc : ctx n
    · simp only [hc, Bool.false_eq_true, if_false] at h ⊢
      by_cases hg : offset + pm.patternLength > buffer.length
      · rw [if_pos hg] at h ⊢
        simp only [List.mem_cons, Event.check.injEq] at h
        rcases h with ⟨hk, hb⟩ | h
        · exact absurd hb (by simp)
        · obtain ⟨p, hp⟩ := ih (n + 1) k h
          exact ⟨Event.check n false :: p, by simp [hp]⟩
      · rw [if_neg hg] at h ⊢
        by_cases hh : opts.Handler ⟨baseAddr + offset, (buffer.drop offset).take pm.patternLength⟩
        · rw [if_pos hh] at h ⊢
          simp only [List.mem_cons, Event.check.injEq] at h
          rcases h with ⟨hk, hb⟩ | h | h
          · exact absurd hb (by simp)
          · exact absurd h (by simp)
          · obtain ⟨p, hp⟩ := ih (n + 1) k h
            exact ⟨Event.check n false ::
              Event.invoke ⟨baseAddr + offset, (buffer.drop offset).take pm.patternLength⟩ :: p,
              by simp [hp]⟩
        · rw [if_neg hh] at h ⊢
          simp only [List.mem_cons, List.not_mem_nil, or_false, Event.check.injEq] at h
          rcases h with ⟨hk, hb⟩ | h
          · exact absurd hb (by simp)
          · exact absurd h (by simp)
    · simp only [hc, if_true] at h ⊢
      simp only [List.mem_singleton, Event.check.injEq] at h
      exact ⟨[], by simp [h.1]⟩

/-- The match loop reports cancellation exactly when its trace contains a
check that observed the signalled token. -/
theorem scanMatches_cancelled_iff (opts : ScanOptions) (pm : PatternMatcher) (ctx : Nat → Bool)
    (baseAddr : Nat) (buffer : List Nat) :
    ∀ offs n,
      (scanMatches opts pm ctx baseAddr buffer offs n).2.2 = true ↔
      ∃ k, Event.check k true ∈ (scanMatches opts pm ctx baseAddr buffer offs n).1 := by
  intro offs
  induction offs with
  | nil => intro n; simp [scanMatches]
  | cons offset rest ih =>
    intro n
    rw [scanMatches]
    cases hc : ctx n
    · simp only [hc, Bool.false_eq_true, if_false]
      by_cases hg : offset + pm.patternLength > buffer.length
      · rw [if_pos hg]
        simp only [List.mem_cons, Event.check.injEq]
        rw [ih (n + 1)]
        constructor
        · rintro ⟨k, hk⟩; exact ⟨k, Or.inr hk⟩
        · rintro ⟨k, ⟨hk, hb⟩ | hk⟩
          · exact absurd hb (by simp)
          · exact ⟨k, hk⟩
      · rw [if_neg hg]
        by_cases hh : opts.Handler ⟨baseAddr + offset, (buffer.drop offset).take pm.patternLength⟩
        · rw [if_pos hh]
          simp only [List.mem_cons, Event.check.injEq]
          rw [ih (n + 1)]
          constructor
          · rintro ⟨k, hk⟩; exact ⟨k, Or.inr (Or.inr hk)⟩
          · rintro ⟨k, ⟨hk, hb⟩ | hk | hk⟩
            · exact absurd hb (by simp)
            · exact absurd hk (by simp)
            · exact ⟨k, hk⟩
        · rw [if_neg hh]
          simp
    · simp [hc]

/-- Appending a trace in which every query/invocation is check-guarded
regardless of context preserves guardedness. -/
theorem guardedAfter_append (b : List Event) (hb : ∀ p, guardedAfter p b = true) :
    ∀ a prev, guardedAfter prev a = true → guardedAfter prev (a ++ b) = true := by
  intro a
  induction a with
  | nil => intro prev _; simpa using hb prev
  | cons e a ih =>
    intro prev h
    rw [List.cons_append]
    rw [guardedAfter] at h ⊢
    rw [Bool.and_eq_true] at h ⊢
    exact ⟨h.1, ih e h.2⟩

/-- Every query or handler invocation in the match loop's trace is
immediately preceded by a check that found the token clear. -/
theorem scanMatches_guarded (opts : ScanOptions) (pm : PatternMatcher) (ctx : Nat → Bool)
    (baseAddr : Nat) (buffer : List Nat) :
    ∀ offs n prev,
      guardedAfter prev (scanMatches opts pm ctx baseAddr buffer offs n).1 = true := by
  intro offs
  induction offs with
  | nil => intro n prev; simp [scanMatches, guardedAfter]
  | cons offset rest ih =>
    intro n prev
    rw [scanMatches]
    cases hc : ctx n
    · simp only [hc, Bool.false_eq_true, if_false]
      by_cases hg : offset + pm.patternLength > buffer.length
      · rw [if_pos hg]
        simp only [guardedAfter, needsCheck, Bool.not_false, Bool.true_or, Bool.true_and]
        exact ih (n + 1) (Event.check n false)
      · rw [if_neg hg]
        by_cases hh : opts.Handler ⟨baseAddr + offset, (buffer.drop offset).take pm.patternLength⟩
        · rw [if_pos hh]
          simp only [guardedAfter, needsCheck, isCheckFalse, Bool.not_false, Bool.true_or,
            Bool.not_true, Bool.false_or, Bool.true_and]
          exact ih (n + 1) _
        · rw [if_neg hh]
          simp [guardedAfter, needsCheck, isCheckFalse]
    · simp [hc, guardedAfter, needsCheck]

/-- Every handler invocation emitted by the match loop is for an offset
of the offset list, carries the absolute address `baseAddr + offset`,
and owns exactly the `patternLength` buffer bytes at that offset. -/
theorem scanMatches_invoke_mem (opts : ScanOptions) (pm : PatternMatcher) (ctx : Nat → Bool)
    (baseAddr : Nat) (buffer : List Nat) :
    ∀ offs n m, Event.invoke m ∈ (scanMatches opts pm ctx baseAddr buffer offs n).1 →
      ∃ offset, offset ∈ offs ∧ offset + pm.patternLength ≤ buffer.length ∧
        m = ⟨baseAddr + offset, (buffer.drop offset).take pm.patternLength⟩ := by
  intro offs
  induction offs with
  | nil => intro n m h; simp [scanMatches] at h
  | cons offset rest ih =>
    intro n m h
    rw [scanMatches] at h
    cases hc : ctx n
    · simp only [hc, Bool.false_eq_true, if_false] at h
      by_cases hg : offset + pm.patternLength > buffer.length
      · rw [if_pos hg] at h
        simp only [List.mem_cons] at h
        rcases h with h | h
        · exact absurd h (by simp)
        · obtain ⟨o, ho, hlen, hm⟩ := ih (n + 1) m h
          exact ⟨o, List.mem_cons_of_mem _ ho, hlen, hm⟩
      · rw [if_neg hg] at h
        by_cases hh : opts.Handler ⟨baseAddr + offset, (buffer.drop offset).take pm.patternLength⟩
        · rw [if_pos hh] at h
          simp only [List.mem_cons, Event.invoke.injEq] at h
          rcases h with h | h | h
          · exact absurd h (by simp)
          · exact ⟨offset, List.mem_cons_self _ _, by omega, h⟩
          · obtain ⟨o, ho, hlen, hm⟩ := ih (n + 1) m h
            exact ⟨o, List.mem_cons_of_mem _ ho, hlen, hm⟩
        · rw [if_neg hh] at h
          simp only [List.mem_cons, List.not_mem_nil, or_false, Event.invoke.injEq] at h
          rcases h with h | h
          · exact absurd h (by simp)
          · exact ⟨offset, List.mem_cons_self _ _, by omega, h⟩
    · simp only [hc, if_true, List.mem_singleton] at h
      exact absurd h (by simp)

/-- The match loop emits only check and invocation events — never a
region query or a memory read. -/
theorem scanMatches_events_shape (opts : ScanOptions) (pm : PatternMatcher) (ctx : Nat → Bool)
    (baseAddr : Nat) (buffer : List Nat) :
    ∀ offs n e, e ∈ (scanMatches opts pm ctx baseAddr buffer offs n).1 →
      (∃ k b, e = Event.check k b) ∨ ∃ m, e = Event.invoke m := by
  intro offs
  induction offs with
  | nil => intro n e h; simp [scanMatches] at h
  | cons offset rest ih =>
    intro n e h
    rw [scanMatches] at h
    cases hc : ctx n
    · simp only [hc, Bool.false_eq_true, if_false] at h
      by_cases hg : offset + pm.patternLength > buffer.length
      · rw [if_pos hg] at h
        simp only [List.mem_cons] at h
        rcases h with h | h
        · exact Or.inl ⟨n, false, h⟩
        · exact ih (n + 1) e h
      · rw [if_neg hg] at h
        by_cases hh : opts.Handler ⟨baseAddr + offset, (buffer.drop offset).take pm.patternLength⟩
        · rw [if_pos hh] at h
          simp only [List.mem_cons] at h
          rcases h with h | h | h
          · exact Or.inl ⟨n, false, h⟩
          · exact Or.inr ⟨_, h⟩
          · exact ih (n + 1) e h
        · rw [if_neg hh] at h
          simp only [List.mem_cons, List.not_mem_nil, or_false] at h
          rcases h with h | h
          · exact Or.inl ⟨n, false, h⟩
          · exact Or.inr ⟨_, h⟩
    · simp only [hc, if_true, List.mem_singleton] at h
      exact Or.inl ⟨n, true, h⟩

/-- Case analysis of `scanRegion`: either the clamped overlap is empty
(no event at all), or a read of the positive in-bounds overlap is
issued, followed — when the transfer is non-empty — by the match loop
over the transferred buffer. -/
theorem scanRegion_cases (os : OS) (opts : ScanOptions) (pm : PatternMatcher)
    (ctx : Nat → Bool) (baseAddr regionSize n : Nat) :
    scanRegion os opts pm ctx baseAddr regionSize n = ([], n, false) ∨
    ∃ len, 0 < len ∧ baseAddr + len ≤ opts.MaxAddress ∧ len ≤ regionSize ∧
      (((os.readMem baseAddr len).take len = [] ∧
        scanRegion os opts pm ctx baseAddr regionSize n =
          ([Event.read baseAddr len], n, false)) ∨
       ((os.readMem baseAddr len).take len ≠ [] ∧
        scanRegion os opts pm ctx baseAddr regionSize n =
          (Event.read baseAddr len ::
            (scanMatches opts pm ctx baseAddr ((os.readMem baseAddr len).take len)
              (findMatches pm ((os.readMem baseAddr len).take len) opts.IgnoreCase) n).1,
           (scanMatches opts pm ctx baseAddr ((os.readMem baseAddr len).take len)
              (findMatches pm ((os.readMem baseAddr len).take len) opts.IgnoreCase) n).2.1,
           (scanMatches opts pm ctx baseAddr ((os.readMem baseAddr len).take len)
              (findMatches pm ((os.readMem baseAddr len).take len) opts.IgnoreCase) n).2.2))) := by
  simp only [scanRegion]
  by_cases h1 : (if baseAddr + regionSize > opts.MaxAddress then opts.MaxAddress
      else baseAddr + regionSize) ≤ baseAddr
  · rw [if_pos h1]
    exact Or.inl rfl
  · rw [if_neg h1]
    by_cases hA : baseAddr + regionSize > opts.MaxAddress
    · simp only [if_pos hA] at h1 ⊢
      refine Or.inr ⟨opts.MaxAddress - baseAddr, by omega, by omega, by omega, ?_⟩
      by_cases h2 : (os.readMem baseAddr (opts.MaxAddress - baseAddr)).take
          (opts.MaxAddress - baseAddr) = []
      · rw [if_pos h2]
        exact Or.inl ⟨h2, rfl⟩
      · rw [if_neg h2]
        exact Or.inr ⟨h2, rfl⟩
    · simp only [if_neg hA, Nat.add_sub_cancel_left] at h1 ⊢
      refine Or.inr ⟨regionSize, by omega, by omega, by omega, ?_⟩
      by_cases h2 : (os.readMem baseAddr regionSize).take regionSize = []
      · rw [if_pos h2]
        exact Or.inl ⟨h2, rfl⟩
      · rw [if_neg h2]
        exact Or.inr ⟨h2, rfl⟩

/-- Check events of `scanRegion` record the token's actual value. -/
theorem scanRegion_check_mem (os : OS) (opts : ScanOptions) (pm : PatternMatcher)
    (ctx : Nat → Bool) (baseAddr regionSize n : Nat) :
    ∀ k b, Event.check k b ∈ (scanRegion os opts pm ctx baseAddr regionSize n).1 →
      b = ctx k := by
  intro k b h
  rcases scanRegion_cases os opts pm ctx baseAddr regionSize n with heq |
    ⟨len, h0, hmax, hsz, ⟨hemp, heq⟩ | ⟨hne, heq⟩⟩
  · rw [heq] at h; simp at h
  · rw [heq] at h; simp at h
  · rw [heq] at h
    simp only [List.mem_cons] at h
    rcases h with h | h
    · exact absurd h (by simp)
    · exact scanMatches_check_mem opts pm ctx baseAddr _ _ n k b h

/-- A check of `scanRegion` that observed the signalled token ends the
trace. -/
theorem scanRegion_checkTrue_last (os : OS) (opts : ScanOptions) (pm : PatternMatcher)
    (ctx : Nat → Bool) (baseAddr regionSize n : Nat) :
    ∀ k, Event.check k true ∈ (scanRegion os opts pm ctx baseAddr regionSize n).1 →
      ∃ p, (scanRegion os opts pm ctx baseAddr regionSize n).1 =
        p ++ [Event.check k true] := by
  intro k h
  rcases scanRegion_cases os opts pm ctx baseAddr regionSize n with heq |
    ⟨len, h0, hmax, hsz, ⟨hemp, heq⟩ | ⟨hne, heq⟩⟩
  · rw [heq] at h; simp at h
  · rw [heq] at h; simp at h
  · rw [heq] at h ⊢
    simp only [List.mem_cons] at h
    rcases h with h | h
    · exact absurd h (by simp)
    · obtain ⟨p, hp⟩ := scanMatches_checkTrue_last opts pm ctx baseAddr _ _ n k h
      exact ⟨Event.read baseAddr len :: p, by simp [hp]⟩

/-- `scanRegion` reports cancellation exactly when its trace contains a
check that observed the signalled token. -/
theorem scanRegion_cancelled_iff (os : OS) (opts : ScanOptions) (pm : PatternMatcher)
    (ctx : Nat → Bool) (baseAddr regionSize n : Nat) :
    (scanRegion os opts pm ctx baseAddr regionSize n).2.2 = true ↔
      ∃ k, Event.check k true ∈ (scanRegion os opts pm ctx baseAddr regionSize n).1 := by
  rcases scanRegion_cases os opts pm ctx baseAddr regionSize n with heq |
    ⟨len, h0, hmax, hsz, ⟨hemp, heq⟩ | ⟨hne, heq⟩⟩
  · rw [heq]; simp
  · rw [heq]; simp
  · rw [heq]
    simp only [List.mem_cons]
    rw [scanMatches_cancelled_iff]
    constructor
    · rintro ⟨k, hk⟩; exact ⟨k, Or.inr hk⟩
    · rintro ⟨k, hk | hk⟩
      · exact absurd hk (by simp)
      · exact ⟨k, hk⟩

/-- Every query or handler invocation in a `scanRegion` trace is
immediately preceded by a check that found the token clear. -/
theorem scanRegion_guarded (os : OS) (opts : ScanOptions) (pm : PatternMatcher)
    (ctx : Nat → Bool) (baseAddr regionSize n : Nat) :
    ∀ prev, guardedAfter prev (scanRegion os opts pm ctx baseAddr regionSize n).1 = true := by
  intro prev
  rcases scanRegion_cases os opts pm ctx baseAddr regionSize n with heq |
    ⟨len, h0, hmax, hsz, ⟨hemp, heq⟩ | ⟨hne, heq⟩⟩
  · rw [heq]; simp [guardedAfter]
  · rw [heq]; simp [guardedAfter, needsCheck]
  · rw [heq]
    simp only [guardedAfter, needsCheck, Bool.not_false, Bool.true_or, Bool.true_and]
    exact scanMatches_guarded opts pm ctx baseAddr _ _ n (Event.read baseAddr len)

/-- Every handler invocation of `scanRegion` is for a matcher-reported
offset of the transferred buffer: the region's read event is in the same
trace, and the match owns exactly the `patternLength` buffer bytes at
its offset with absolute address `baseAddr + offset`. -/
theorem scanRegion_invoke_mem (os : OS) (opts : ScanOptions) (pm : PatternMatcher)
    (ctx : Nat → Bool) (baseAddr regionSize n : Nat) :
    ∀ m, Event.invoke m ∈ (scanRegion os opts pm ctx baseAddr regionSize n).1 →
      ∃ len offset, Event.read baseAddr len ∈ (scanRegion os opts pm ctx baseAddr regionSize n).1 ∧
        offset ∈ findMatches pm ((os.readMem baseAddr len).take len) opts.IgnoreCase ∧
        offset + pm.patternLength ≤ ((os.readMem baseAddr len).take len).length ∧
        m = ⟨baseAddr + offset,
          (((os.readMem baseAddr len).take len).drop offset).take pm.patternLength⟩ := by
  intro m h
  rcases scanRegion_cases os opts pm ctx baseAddr regionSize n with heq |
    ⟨len, h0, hmax, hsz, ⟨hemp, heq⟩ | ⟨hne, heq⟩⟩
  · rw [heq] at h; simp at h
  · rw [heq] at h; simp at h
  · rw [heq] at h ⊢
    simp only [List.mem_cons] at h
    rcases h with h | h
    · exact absurd h (by simp)
    · obtain ⟨offset, ho, hlen, hm⟩ := scanMatches_invoke_mem opts pm ctx baseAddr _ _ n m h
      exact ⟨len, offset, List.mem_cons_self _ _, ho, hlen, hm⟩

/-- Every read event of `scanRegion` reads from the region's base, a
positive number of bytes, bounded by the region size and by the scan's
`MaxAddress`. -/
theorem scanRegion_read_mem (os : OS) (opts : ScanOptions) (pm : PatternMatcher)
    (ctx : Nat → Bool) (baseAddr regionSize n : Nat) :
    ∀ b l, Event.read b l ∈ (scanRegion os opts pm ctx baseAddr regionSize n).1 →
      b = baseAddr ∧ 0 < l ∧ b + l ≤ opts.MaxAddress ∧ l ≤ regionSize := by
  intro b l h
  rcases scanRegion_cases os opts pm ctx baseAddr regionSize n with heq |
    ⟨len, h0, hmax, hsz, ⟨hemp, heq⟩ | ⟨hne, heq⟩⟩
  · rw [heq] at h; simp at h
  · rw [heq] at h
    simp only [List.mem_singleton, Event.read.injEq] at h
    obtain ⟨hb, hl⟩ := h
    subst hb; subst hl
    exact ⟨rfl, h0, hmax, hsz⟩
  · rw [heq] at h
    simp only [List.mem_cons, Event.read.injEq] at h
    rcases h with ⟨hb, hl⟩ | h
    · subst hb; subst hl
      exact ⟨rfl, h0, hmax, hsz⟩
    · rcases scanMatches_events_shape opts pm ctx baseAddr _ _ n _ h with ⟨k, bb, hk⟩ | ⟨mm, hk⟩ <;>
        simp at hk

/-- Case analysis of one iteration of the region walk. -/
theorem scanLoop_succ_cases (os : OS) (opts : ScanOptions) (pm : PatternMatcher)
    (ctx : Nat → Bool) (fuel address n : Nat) :
    (¬ address < opts.MaxAddress ∧
      scanLoop os opts pm ctx (fuel + 1) address n = some ([], ScanOutcome.ok)) ∨
    (address < opts.MaxAddress ∧ ctx n = true ∧
      scanLoop os opts pm ctx (fuel + 1) address n =
        some ([Event.check n true], ScanOutcome.cancelled)) ∨
    (address < opts.MaxAddress ∧ ctx n = false ∧ os.query address = none ∧
      scanLoop os opts pm ctx (fuel + 1) address n =
        some ([Event.check n false, Event.query address], ScanOutcome.ok)) ∨
    (∃ mbi, address < opts.MaxAddress ∧ ctx n = false ∧ os.query address = some mbi ∧
      isReadableRegion mbi = true ∧
      (scanRegion os opts pm ctx mbi.BaseAddress mbi.RegionSize (n + 1)).2.2 = true ∧
      scanLoop os opts pm ctx (fuel + 1) address n =
        some (Event.check n false :: Event.query address ::
          (scanRegion os opts pm ctx mbi.BaseAddress mbi.RegionSize (n + 1)).1,
          ScanOutcome.cancelled)) ∨
    (∃ mbi, address < opts.MaxAddress ∧ ctx n = false ∧ os.query address = some mbi ∧
      isReadableRegion mbi = true ∧
      (scanRegion os opts pm ctx mbi.BaseAddress mbi.RegionSize (n + 1)).2.2 = false ∧
      ((scanLoop os opts pm ctx fuel (nextAddress mbi)
          (scanRegion os opts pm ctx mbi.BaseAddress mbi.RegionSize (n + 1)).2.1 = none ∧
        scanLoop os opts pm ctx (fuel + 1) address n = none) ∨
       (∃ evs out, scanLoop os opts pm ctx fuel (nextAddress mbi)
          (scanRegion os opts pm ctx mbi.BaseAddress mbi.RegionSize (n + 1)).2.1 =
            some (evs, out) ∧
        scanLoop os opts pm ctx (fuel + 1) address n =
          some (Event.check n false :: Event.query address ::
            ((scanRegion os opts pm ctx mbi.BaseAddress mbi.RegionSize (n + 1)).1 ++ evs),
            out)))) ∨
    (∃ mbi, address < opts.MaxAddress ∧ ctx n = false ∧ os.query address = some mbi ∧
      isReadableRegion mbi = false ∧
      ((scanLoop os opts pm ctx fuel (nextAddress mbi) (n + 1) = none ∧
        scanLoop os opts pm ctx (fuel + 1) address n = none) ∨
       (∃ evs out, scanLoop os opts pm ctx fuel (nextAddress mbi) (n + 1) = some (evs, out) ∧
        scanLoop os opts pm ctx (fuel + 1) address n =
          some (Event.check n false :: Event.query address :: evs, out)))) := by
  by_cases ha : address < opts.MaxAddress
  · cases hc : ctx n
    · cases hq : os.query address with
      | none =>
        refine Or.inr (Or.inr (Or.inl ⟨ha, rfl, rfl, ?_⟩))
        rw [scanLoop]; simp [ha, hc, hq]
      | some mbi =>
        cases hr : isReadableRegion mbi
        · cases hrec : scanLoop os opts pm ctx fuel (nextAddress mbi) (n + 1) with
          | none =>
            refine Or.inr (Or.inr (Or.inr (Or.inr (Or.inr
              ⟨mbi, ha, rfl, rfl, hr, Or.inl ⟨hrec, ?_⟩⟩))))
            rw [scanLoop]; simp [ha, hc, hq, hr, hrec]
          | some p =>
            obtain ⟨evs, out⟩ := p
            refine Or.inr (Or.inr (Or.inr (Or.inr (Or.inr
              ⟨mbi, ha, rfl, rfl, hr, Or.inr ⟨evs, out, hrec, ?_⟩⟩))))
            rw [scanLoop]; simp [ha, hc, hq, hr, hrec]
        · cases hcanc : (scanRegion os opts pm ctx mbi.BaseAddress mbi.RegionSize (n + 1)).2.2
          · cases hrec : scanLoop os opts pm ctx fuel (nextAddress mbi)
                (scanRegion os opts pm ctx mbi.BaseAddress mbi.RegionSize (n + 1)).2.1 with
            | none =>
              refine Or.inr (Or.inr (Or.inr (Or.inr (Or.inl
                ⟨mbi, ha, rfl, rfl, hr, hcanc, Or.inl ⟨hrec, ?_⟩⟩))))
              rw [scanLoop]; simp [ha, hc, hq, hr, hcanc, hrec]
            | some p =>
              obtain ⟨evs, out⟩ := p
              refine Or.inr (Or.inr (Or.inr (Or.inr (Or.inl
                ⟨mbi, ha, rfl, rfl, hr, hcanc, Or.inr ⟨evs, out, hrec, ?_⟩⟩))))
              rw [scanLoop]; simp [ha, hc, hq, hr, hcanc, hrec]
          · refine Or.inr (Or.inr (Or.inr (Or.inl ⟨mbi, ha, rfl, rfl, hr, hcanc, ?_⟩)))
            rw [scanLoop]; simp [ha, hc, hq, hr, hcanc]
    · refine Or.inr (Or.inl ⟨ha, rfl, ?_⟩)
      rw [scanLoop]; simp [ha, hc]
  · refine Or.inl ⟨ha, ?_⟩
    rw [scanLoop]; simp [ha]

/-- Check events of the region walk record the token's actual value. -/
theorem scanLoop_check_mem (os : OS) (opts : ScanOptions) (pm : PatternMatcher)
    (ctx : Nat → Bool) :
    ∀ fuel address n trace out,
      scanLoop os opts pm ctx fuel address n = some (trace, out) →
      ∀ k b, Event.check k b ∈ trace → b = ctx k := by
  intro fuel
  induction fuel with
  | zero =>
    intro address n trace out h
    rw [scanLoop] at h
    exact absurd h (by simp)
  | succ fuel ih =>
    intro address n trace out h k b hm
    rcases scanLoop_succ_cases os opts pm ctx fuel address n with
      ⟨ha, heq⟩ | ⟨ha, hc, heq⟩ | ⟨ha, hc, hq, heq⟩ |
      ⟨mbi, ha, hc, hq, hr, hcanc, heq⟩ |
      ⟨mbi, ha, hc, hq, hr, hcanc, ⟨hrec, heq⟩ | ⟨evs, out2, hrec, heq⟩⟩ |
      ⟨mbi, ha, hc, hq, hr, ⟨hrec, heq⟩ | ⟨evs, out2, hrec, heq⟩⟩
    · rw [heq] at h
      simp only [Option.some.injEq, Prod.mk.injEq] at h
      rw [← h.1] at hm
      simp at hm
    · rw [heq] at h
      simp only [Option.some.injEq, Prod.mk.injEq] at h
      rw [← h.1] at hm
      simp only [List.mem_singleton, Event.check.injEq] at hm
      rw [hm.2, hm.1, hc]
    · rw [heq] at h
      simp only [Option.some.injEq, Prod.mk.injEq] at h
      rw [← h.1] at hm
      simp only [List.mem_cons, List.not_mem_nil, or_false, Event.check.injEq] at hm
      rcases hm with ⟨hk, hb⟩ | hm
      · rw [hb, hk, hc]
      · exact absurd hm (by simp)
    · rw [heq] at h
      simp only [Option.some.injEq, Prod.mk.injEq] at h
      rw [← h.1] at hm
      simp only [List.mem_cons, Event.check.injEq] at hm
      rcases hm with ⟨hk, hb⟩ | hm | hm
      · rw [hb, hk, hc]
      · exact absurd hm (by simp)
      · exact scanRegion_check_mem os opts pm ctx mbi.BaseAddress mbi.RegionSize (n + 1) k b hm
    · rw [heq] at h
      exact absurd h (by simp)
    · rw [heq] at h
      simp only [Option.some.injEq, Prod.mk.injEq] at h
      rw [← h.1] at hm
      simp only [List.mem_cons, List.mem_append, Event.check.injEq] at hm
      rcases hm with ⟨hk, hb⟩ | hm | hm | hm
      · rw [hb, hk, hc]
      · exact absurd hm (by simp)
      · exact scanRegion_check_mem os opts pm ctx mbi.BaseAddress mbi.RegionSize (n + 1) k b hm
      · exact ih (nextAddress mbi) _ evs out2 hrec k b hm
    · rw [heq] at h
      exact absurd h (by simp)
    · rw [heq] at h
      simp only [Option.some.injEq, Prod.mk.injEq] at h
      rw [← h.1] at hm
      simp only [List.mem_cons, Event.check.injEq] at hm
      rcases hm with ⟨hk, hb⟩ | hm | hm
      · rw [hb, hk, hc]
      · exact absurd hm (by simp)
      · exact ih (nextAddress mbi) (n + 1) evs out2 hrec k b hm

/-- A check of the region walk that observed the signalled token is the
final event of the trace: nothing is queried, read or invoked after the
cancellation is observed. -/
theorem scanLoop_checkTrue_last (os : OS) (opts : ScanOptions) (pm : PatternMatcher)
    (ctx : Nat → Bool) :
    ∀ fuel address n trace out,
      scanLoop os opts pm ctx fuel address n = some (trace, out) →
      ∀ k, Event.check k true ∈ trace → ∃ p, trace = p ++ [Event.check k true] := by
  intro fuel
  induction fuel with
  | zero =>
    intro address n trace out h
    rw [scanLoop] at h
    exact absurd h (by simp)
  | succ fuel ih =>
    intro address n trace out h k hm
    rcases scanLoop_succ_cases os opts pm ctx fuel address n with
      ⟨ha, heq⟩ | ⟨ha, hc, heq⟩ | ⟨ha, hc, hq, heq⟩ |
      ⟨mbi, ha, hc, hq, hr, hcanc, heq⟩ |
      ⟨mbi, ha, hc, hq, hr, hcanc, ⟨hrec, heq⟩ | ⟨evs, out2, hrec, heq⟩⟩ |
      ⟨mbi, ha, hc, hq, hr, ⟨hrec, heq⟩ | ⟨evs, out2, hrec, heq⟩⟩
    · rw [heq] at h
      simp only [Option.some.injEq, Prod.mk.injEq] at h
      rw [← h.1] at hm
      simp at hm
    · rw [heq] at h
      simp only [Option.some.injEq, Prod.mk.injEq] at h
      rw [← h.1] at hm ⊢
      simp only [List.mem_singleton, Event.check.injEq] at hm
      exact ⟨[], by simp [hm.1]⟩
    · rw [heq] at h
      simp only [Option.some.injEq, Prod.mk.injEq] at h
      rw [← h.1] at hm
      simp only [List.mem_cons, List.not_mem_nil, or_false, Event.check.injEq] at hm
      rcases hm with ⟨hk, hb⟩ | hm
      · exact absurd hb (by simp)
      · exact absurd hm (by simp)
    · rw [heq] at h
      simp only [Option.some.injEq, Prod.mk.injEq] at h
      rw [← h.1] at hm ⊢
      simp only [List.mem_cons, Event.check.injEq] at hm
      rcases hm with ⟨hk, hb⟩ | hm | hm
      · exact absurd hb (by simp)
      · exact absurd hm (by simp)
      · obtain ⟨p, hp⟩ := scanRegion_checkTrue_last os opts pm ctx
          mbi.BaseAddress mbi.RegionSize (n + 1) k hm
        exact ⟨Event.check n false :: Event.query address :: p, by simp [hp]⟩
    · rw [heq] at h
      exact absurd h (by simp)
    · rw [heq] at h
      simp only [Option.some.injEq, Prod.mk.injEq] at h
      rw [← h.1] at hm ⊢
      simp only [List.mem_cons, List.mem_append, Event.check.injEq] at hm
      rcases hm with ⟨hk, hb⟩ | hm | hm | hm
      · exact absurd hb (by simp)
      · exact absurd hm (by simp)
      · exact absurd ((scanRegion_cancelled_iff os opts pm ctx
          mbi.BaseAddress mbi.RegionSize (n + 1)).mpr ⟨k, hm⟩) (by simp [hcanc])
      · obtain ⟨p, hp⟩ := ih (nextAddress mbi) _ evs out2 hrec k hm
        refine ⟨Event.check n false :: Event.query address ::
          ((scanRegion os opts pm ctx mbi.BaseAddress mbi.RegionSize (n + 1)).1 ++ p), ?_⟩
        simp [hp]
    · rw [heq] at h
      exact absurd h (by simp)
    · rw [heq] at h
      simp only [Option.some.injEq, Prod.mk.injEq] at h
      rw [← h.1] at hm ⊢
      simp only [List.mem_cons, Event.check.injEq] at hm
      rcases hm with ⟨hk, hb⟩ | hm | hm
      · exact absurd hb (by simp)
      · exact absurd hm (by simp)
      · obtain ⟨p, hp⟩ := ih (nextAddress mbi) (n + 1) evs out2 hrec k hm
        exact ⟨Event.check n false :: Event.query address :: p, by simp [hp]⟩

/-- The region walk returns the cancellation error exactly when its
trace contains a check that observed the signalled token. -/
theorem scanLoop_cancelled_iff (os : OS) (opts : ScanOptions) (pm : PatternMatcher)
    (ctx : Nat → Bool) :
    ∀ fuel address n trace out,
      scanLoop os opts pm ctx fuel address n = some (trace, out) →
      (out = ScanOutcome.cancelled ↔ ∃ k, Event.check k true ∈ trace) := by
  intro fuel
  induction fuel with
  | zero =>
    intro address n trace out h
    rw [scanLoop] at h
    exact absurd h (by simp)
  | succ fuel ih =>
    intro address n trace out h
    rcases scanLoop_succ_cases os opts pm ctx fuel address n with
      ⟨ha, heq⟩ | ⟨ha, hc, heq⟩ | ⟨ha, hc, hq, heq⟩ |
      ⟨mbi, ha, hc, hq, hr, hcanc, heq⟩ |
      ⟨mbi, ha, hc, hq, hr, hcanc, ⟨hrec, heq⟩ | ⟨evs, out2, hrec, heq⟩⟩ |
      ⟨mbi, ha, hc, hq, hr, ⟨hrec, heq⟩ | ⟨evs, out2, hrec, heq⟩⟩
    · rw [heq] at h
      simp only [Option.some.injEq, Prod.mk.injEq] at h
      rw [← h.1, ← h.2]
      exact iff_of_false (by simp) (by simp)
    · rw [heq] at h
      simp only [Option.some.injEq, Prod.mk.injEq] at h
      rw [← h.1, ← h.2]
      exact iff_of_true rfl ⟨n, by simp⟩
    · rw [heq] at h
      simp only [Option.some.injEq, Prod.mk.injEq] at h
      rw [← h.1, ← h.2]
      exact iff_of_false (by simp) (by simp)
    · rw [heq] at h
      simp only [Option.some.injEq, Prod.mk.injEq] at h
      rw [← h.1, ← h.2]
      obtain ⟨k, hk⟩ := (scanRegion_cancelled_iff os opts pm ctx
        mbi.BaseAddress mbi.RegionSize (n + 1)).mp hcanc
      exact iff_of_true rfl ⟨k, List.mem_cons_of_mem _ (List.mem_cons_of_mem _ hk)⟩
    · rw [heq] at h
      exact absurd h (by simp)
    · rw [heq] at h
      simp only [Option.some.injEq, Prod.mk.injEq] at h
      rw [← h.1, ← h.2]
      have hiff := ih (nextAddress mbi) _ evs out2 hrec
      constructor
      · intro ho
        obtain ⟨k, hk⟩ := hiff.mp ho
        exact ⟨k, by simp [hk]⟩
      · rintro ⟨k, hk⟩
        simp only [List.mem_cons, List.mem_append, Event.check.injEq] at hk
        rcases hk with ⟨hk1, hb⟩ | hk | hk | hk
        · exact absurd hb (by simp)
        · exact absurd hk (by simp)
        · exact absurd ((scanRegion_cancelled_iff os opts pm ctx
            mbi.BaseAddress mbi.RegionSize (n + 1)).mpr ⟨k, hk⟩) (by simp [hcanc])
        · exact hiff.mpr ⟨k, hk⟩
    · rw [heq] at h
      exact absurd h (by simp)
    · rw [heq] at h
      simp only [Option.some.injEq, Prod.mk.injEq] at h
      rw [← h.1, ← h.2]
      have hiff := ih (nextAddress mbi) (n + 1) evs out2 hrec
      constructor
      · intro ho
        obtain ⟨k, hk⟩ := hiff.mp ho
        exact ⟨k, by simp [hk]⟩
      · rintro ⟨k, hk⟩
        simp only [List.mem_cons, Event.check.injEq] at hk
        rcases hk with ⟨hk1, hb⟩ | hk | hk
        · exact absurd hb (by simp)
        · exact absurd hk (by simp)
        · exact hiff.mpr ⟨k, hk⟩

/-- Every query and every handler invocation of the region walk is
immediately preceded by a cancellation check that found the token
clear. -/
theorem scanLoop_guarded (os : OS) (opts : ScanOptions) (pm : PatternMatcher)
    (ctx : Nat → Bool) :
    ∀ fuel address n trace out,
      scanLoop os opts pm ctx fuel address n = some (trace, out) →
      ∀ prev, guardedAfter prev trace = true := by
  intro fuel
  induction fuel with
  | zero =>
    intro address n trace out h
    rw [scanLoop] at h
    exact absurd h (by simp)
  | succ fuel ih =>
    intro address n trace out h prev
    rcases scanLoop_succ_cases os opts pm ctx fuel address n with
      ⟨ha, heq⟩ | ⟨ha, hc, heq⟩ | ⟨ha, hc, hq, heq⟩ |
      ⟨mbi, ha, hc, hq, hr, hcanc, heq⟩ |
      ⟨mbi, ha, hc, hq, hr, hcanc, ⟨hrec, heq⟩ | ⟨evs, out2, hrec, heq⟩⟩ |
      ⟨mbi, ha, hc, hq, hr, ⟨hrec, heq⟩ | ⟨evs, out2, hrec, heq⟩⟩
    · rw [heq] at h
      simp only [Option.some.injEq, Prod.mk.injEq] at h
      rw [← h.1]
      simp [guardedAfter]
    · rw [heq] at h
      simp only [Option.some.injEq, Prod.mk.injEq] at h
      rw [← h.1]
      simp [guardedAfter, needsCheck]
    · rw [heq] at h
      simp only [Option.some.injEq, Prod.mk.injEq] at h
      rw [← h.1]
      simp [guardedAfter, needsCheck, isCheckFalse]
    · rw [heq] at h
      simp only [Option.some.injEq, Prod.mk.injEq] at h
      rw [← h.1]
      simp only [guardedAfter, needsCheck, isCheckFalse, Bool.not_false, Bool.true_or,
        Bool.not_true, Bool.false_or, Bool.true_and]
      exact scanRegion_guarded os opts pm ctx mbi.BaseAddress mbi.RegionSize (n + 1) _
    · rw [heq] at h
      exact absurd h (by simp)
    · rw [heq] at h
      simp only [Option.some.injEq, Prod.mk.injEq] at h
      rw [← h.1]
      simp only [guardedAfter, needsCheck, isCheckFalse, Bool.not_false, Bool.true_or,
        Bool.not_true, Bool.false_or, Bool.true_and]
      exact guardedAfter_append evs (fun p => ih (nextAddress mbi) _ evs out2 hrec p) _ _
        (scanRegion_guarded os opts pm ctx mbi.BaseAddress mbi.RegionSize (n + 1) _)
    · rw [heq] at h
      exact absurd h (by simp)
    · rw [heq] at h
      simp only [Option.some.injEq, Prod.mk.injEq] at h
      rw [← h.1]
      simp only [guardedAfter, needsCheck, isCheckFalse, Bool.not_false, Bool.true_or,
        Bool.not_true, Bool.false_or, Bool.true_and]
      exact ih (nextAddress mbi) (n + 1) evs out2 hrec _

/-- Every read event of the region walk reads from the base of a region
that the query returned and that passed `isReadableRegion`, a positive
number of bytes bounded by the region size and by `MaxAddress`. -/
theorem scanLoop_read_mem (os : OS) (opts : ScanOptions) (pm : PatternMatcher)
    (ctx : Nat → Bool) :
    ∀ fuel address n trace out,
      scanLoop os opts pm ctx fuel address n = some (trace, out) →
      ∀ b l, Event.read b l ∈ trace →
        ∃ a mbi, os.query a = some mbi ∧ isReadableRegion mbi = true ∧
          b = mbi.BaseAddress ∧ 0 < l ∧ b + l ≤ opts.MaxAddress ∧ l ≤ mbi.RegionSize := by
  intro fuel
  induction fuel with
  | zero =>
    intro address n trace out h
    rw [scanLoop] at h
    exact absurd h (by simp)
  | succ fuel ih =>
    intro address n trace out h b l hm
    rcases scanLoop_succ_cases os opts pm ctx fuel address n with
      ⟨ha, heq⟩ | ⟨ha, hc, heq⟩ | ⟨ha, hc, hq, heq⟩ |
      ⟨mbi, ha, hc, hq, hr, hcanc, heq⟩ |
      ⟨mbi, ha, hc, hq, hr, hcanc, ⟨hrec, heq⟩ | ⟨evs, out2, hrec, heq⟩⟩ |
      ⟨mbi, ha, hc, hq, hr, ⟨hrec, heq⟩ | ⟨evs, out2, hrec, heq⟩⟩
    · rw [heq] at h
      simp only [Option.some.injEq, Prod.mk.injEq] at h
      rw [← h.1] at hm
      simp at hm
    · rw [heq] at h
      simp only [Option.some.injEq, Prod.mk.injEq] at h
      rw [← h.1] at hm
      simp at hm
    · rw [heq] at h
      simp only [Option.some.injEq, Prod.mk.injEq] at h
      rw [← h.1] at hm
      simp at hm
    · rw [heq] at h
      simp only [Option.some.injEq, Prod.mk.injEq] at h
      rw [← h.1] at hm
      simp only [List.mem_cons] at hm
      rcases hm with hm | hm | hm
      · exact absurd hm (by simp)
      · exact absurd hm (by simp)
      · obtain ⟨hb, h0, hmax, hsz⟩ := scanRegion_read_mem os opts pm ctx
          mbi.BaseAddress mbi.RegionSize (n + 1) b l hm
        exact ⟨address, mbi, hq, hr, hb, h0, hmax, hsz⟩
    · rw [heq] at h
      exact absurd h (by simp)
    · rw [heq] at h
      simp only [Option.some.injEq, Prod.mk.injEq] at h
      rw [← h.1] at hm
      simp only [List.mem_cons, List.mem_append] at hm
      rcases hm with hm | hm | hm | hm
      · exact absurd hm (by simp)
      · exact absurd hm (by simp)
      · obtain ⟨hb, h0, hmax, hsz⟩ := scanRegion_read_mem os opts pm ctx
          mbi.BaseAddress mbi.RegionSize (n + 1) b l hm
        exact ⟨address, mbi, hq, hr, hb, h0, hmax, hsz⟩
      · exact ih (nextAddress mbi) _ evs out2 hrec b l hm
    · rw [heq] at h
      exact absurd h (by simp)
    · rw [heq] at h
      simp only [Option.some.injEq, Prod.mk.injEq] at h
      rw [← h.1] at hm
      simp only [List.mem_cons] at hm
      rcases hm with hm | hm | hm
      · exact absurd hm (by simp)
      · exact absurd hm (by simp)
      · exact ih (nextAddress mbi) (n + 1) evs out2 hrec b l hm

/-- Every handler invocation of the region walk is backed by a read in
the same trace: the match's offset is reported by the matcher over the
transferred buffer, its address is the region base plus the offset, and
its payload is exactly the `patternLength` buffer bytes at the offset. -/
theorem scanLoop_invoke_mem (os : OS) (opts : ScanOptions) (pm : PatternMatcher)
    (ctx : Nat → Bool) :
    ∀ fuel address n trace out,
      scanLoop os opts pm ctx fuel address n = some (trace, out) →
      ∀ m, Event.invoke m ∈ trace →
        ∃ base len offset, Event.read base len ∈ trace ∧
          offset ∈ findMatches pm ((os.readMem base len).take len) opts.IgnoreCase ∧
          offset + pm.patternLength ≤ ((os.readMem base len).take len).length ∧
          m = ⟨base + offset,
            (((os.readMem base len).take len).drop offset).take pm.patternLength⟩ := by
  intro fuel
  induction fuel with
  | zero =>
    intro address n trace out h
    rw [scanLoop] at h
    exact absurd h (by simp)
  | succ fuel ih =>
    intro address n trace out h m hm
    rcases scanLoop_succ_cases os opts pm ctx fuel address n with
      ⟨ha, heq⟩ | ⟨ha, hc, heq⟩ | ⟨ha, hc, hq, heq⟩ |
      ⟨mbi, ha, hc, hq, hr, hcanc, heq⟩ |
      ⟨mbi, ha, hc, hq, hr, hcanc, ⟨hrec, heq⟩ | ⟨evs, out2, hrec, heq⟩⟩ |
      ⟨mbi, ha, hc, hq, hr, ⟨hrec, heq⟩ | ⟨evs, out2, hrec, heq⟩⟩
    · rw [heq] at h
      simp only [Option.some.injEq, Prod.mk.injEq] at h
      rw [← h.1] at hm
      simp at hm
    · rw [heq] at h
      simp only [Option.some.injEq, Prod.mk.injEq] at h
      rw [← h.1] at hm
      simp at hm
    · rw [heq] at h
      simp only [Option.some.injEq, Prod.mk.injEq] at h
      rw [← h.1] at hm
      simp at hm
    · rw [heq] at h
      simp only [Option.some.injEq, Prod.mk.injEq] at h
      rw [← h.1] at hm ⊢
      simp only [List.mem_cons] at hm
      rcases hm with hm | hm | hm
      · exact absurd hm (by simp)
      · exact absurd hm (by simp)
      · obtain ⟨len, offset, hread, ho, hlen, hmeq⟩ := scanRegion_invoke_mem os opts pm ctx
          mbi.BaseAddress mbi.RegionSize (n + 1) m hm
        exact ⟨mbi.BaseAddress, len, offset,
          List.mem_cons_of_mem _ (List.mem_cons_of_mem _ hread), ho, hlen, hmeq⟩
    · rw [heq] at h
      exact absurd h (by simp)
    · rw [heq] at h
      simp only [Option.some.injEq, Prod.mk.injEq] at h
      rw [← h.1] at hm ⊢
      simp only [List.mem_cons, List.mem_append] at hm
      rcases hm with hm | hm | hm | hm
      · exact absurd hm (by simp)
      · exact absurd hm (by simp)
      · obtain ⟨len, offset, hread, ho, hlen, hmeq⟩ := scanRegion_invoke_mem os opts pm ctx
          mbi.BaseAddress mbi.RegionSize (n + 1) m hm
        exact ⟨mbi.BaseAddress, len, offset,
          by simp only [List.mem_cons, List.mem_append]; exact Or.inr (Or.inr (Or.inl hread)),
          ho, hlen, hmeq⟩
      · obtain ⟨base, len, offset, hread, ho, hlen, hmeq⟩ :=
          ih (nextAddress mbi) _ evs out2 hrec m hm
        exact ⟨base, len, offset,
          by simp only [List.mem_cons, List.mem_append]; exact Or.inr (Or.inr (Or.inr hread)),
          ho, hlen, hmeq⟩
    · rw [heq] at h
      exact absurd h (by simp)
    · rw [heq] at h
      simp only [Option.some.injEq, Prod.mk.injEq] at h
      rw [← h.1] at hm ⊢
      simp only [List.mem_cons] at hm
      rcases hm with hm | hm | hm
      · exact absurd hm (by simp)
      · exact absurd hm (by simp)
      · obtain ⟨base, len, offset, hread, ho, hlen, hmeq⟩ :=
          ih (nextAddress mbi) (n + 1) evs out2 hrec m hm
        exact ⟨base, len, offset,
          List.mem_cons_of_mem _ (List.mem_cons_of_mem _ hread), ho, hlen, hmeq⟩

/-- C2 (amended): when the cancellation token is observed, `Scan`
terminates returning the context's error (`ScanOutcome.cancelled`
modelling the non-nil `ctx.Err()`), and that happens exactly when a
check in the trace saw the signalled token; the observing check is the
final event of the trace, so the matches delivered are exactly the
handler invocations made before cancellation was observed; every check
records the token's actual value, and every region query and every
handler invocation is immediately preceded by a check that found the
token clear. -/
theorem C2_cancellation_semantics (os : OS) (ctx : Nat → Bool) (opts : ScanOptions)
    (fuel : Nat) (trace : List Event) (out : ScanOutcome)
    (h : Scan os ctx opts fuel = some (trace, out)) :
    (out = ScanOutcome.cancelled ↔ ∃ k, Event.check k true ∈ trace) ∧
    (∀ k, Event.check k true ∈ trace → ∃ p, trace = p ++ [Event.check k true]) ∧
    (∀ k b, Event.check k b ∈ trace → b = ctx k) ∧
    (∀ prev, guardedAfter prev trace = true) := by
  unfold Scan at h
  cases hp : NewPatternMatcher opts.Pattern with
  | none =>
    rw [hp] at h
    simp only [Option.some.injEq, Prod.mk.injEq] at h
    rw [← h.1, ← h.2]
    exact ⟨iff_of_false (by simp) (by simp), by simp, by simp, by simp [guardedAfter]⟩
  | some pm =>
    rw [hp] at h
    exact ⟨scanLoop_cancelled_iff os opts pm ctx fuel opts.MinAddress 0 trace out h,
      scanLoop_checkTrue_last os opts pm ctx fuel opts.MinAddress 0 trace out h,
      scanLoop_check_mem os opts pm ctx fuel opts.MinAddress 0 trace out h,
      scanLoop_guarded os opts pm ctx fuel opts.MinAddress 0 trace out h⟩

/-- Witness for C2 on a concrete cancelled run. -/
theorem C2_witness : ∃ k, Event.check k true ∈ [Event.check 0 true] :=
  (C2_cancellation_semantics os1 (fun _ => true) opts1 3 [Event.check 0 true]
    ScanOutcome.cancelled (by decide)).1.mp rfl

/-- C3 (amended): `isReadableRegion` accepts a region exactly when its
state is `MEM_COMMIT` and its protection bitmask shares at least one bit
with the four readable protections (so a guard-modified readable
protection such as `PAGE_READONLY ||| PAGE_GUARD` qualifies, contrary to
the claim's plain-protection list); and the scan issues reads only for
regions returned by the query that pass `isReadableRegion`, reading a
positive number of bytes from the region base, bounded by the region
size and the scan's `MaxAddress` — every other region is skipped with no
read issued. -/
theorem C3_readable_region_reads :
    (∀ mbi : Region, isReadableRegion mbi = true ↔
      (mbi.State = MEM_COMMIT ∧
        mbi.Protect &&& (PAGE_READONLY ||| PAGE_READWRITE |||
          PAGE_EXECUTE_READ ||| PAGE_EXECUTE_READWRITE) ≠ 0)) ∧
    (∀ os ctx opts fuel trace out, Scan os ctx opts fuel = some (trace, out) →
      ∀ b l, Event.read b l ∈ trace →
        ∃ a mbi, os.query a = some mbi ∧ isReadableRegion mbi = true ∧
          b = mbi.BaseAddress ∧ 0 < l ∧ b + l ≤ opts.MaxAddress ∧ l ≤ mbi.RegionSize) := by
  constructor
  · intro mbi
    unfold isReadableRegion
    rw [Bool.and_eq_true, bne_iff_ne, beq_iff_eq]
    exact ⟨fun hh => ⟨hh.2, hh.1⟩, fun hh => ⟨hh.2, hh.1⟩⟩
  · intro os ctx opts fuel trace out h b l hm
    unfold Scan at h
    cases hp : NewPatternMatcher opts.Pattern with
    | none =>
      rw [hp] at h
      simp only [Option.some.injEq, Prod.mk.injEq] at h
      rw [← h.1] at hm
      simp at hm
    | some pm =>
      rw [hp] at h
      exact scanLoop_read_mem os opts pm ctx fuel opts.MinAddress 0 trace out h b l hm

/-- Witness for C3 on the concrete guard-page run. -/
theorem C3_witness :
    ∃ a mbi, os3.query a = some mbi ∧ isReadableRegion mbi = true ∧
      (0 : Nat) = mbi.BaseAddress ∧ 0 < 4 ∧ 0 + 4 ≤ opts4.MaxAddress ∧
      4 ≤ mbi.RegionSize :=
  C3_readable_region_reads.2 os3 (fun _ => false) opts4 2
    [Event.check 0 false, Event.query 0, Event.read 0 4] ScanOutcome.ok
    (by decide) 0 4 (by decide)

/-- C8: every `Match` passed to the handler owns a byte payload of length
exactly the compiled pattern's length, equal to the bytes of the
transferred buffer at the match offset (captured by value in this
model, mirroring the `copy` into a fresh slice in the code), and its
address is the region's base address plus the match offset. -/
theorem C8_match_payload (os : OS) (ctx : Nat → Bool) (opts : ScanOptions) (fuel : Nat)
    (pm : PatternMatcher) (trace : List Event) (out : ScanOutcome)
    (hpm : NewPatternMatcher opts.Pattern = some pm)
    (h : Scan os ctx opts fuel = some (trace, out)) :
    ∀ m, Event.invoke m ∈ trace →
      m.Data.length = pm.patternLength ∧
      ∃ base len offset, Event.read base len ∈ trace ∧
        offset ∈ findMatches pm ((os.readMem base len).take len) opts.IgnoreCase ∧
        m.Address = base + offset ∧
        m.Data = (((os.readMem base len).take len).drop offset).take pm.patternLength := by
  intro m hm
  unfold Scan at h
  rw [hpm] at h
  obtain ⟨base, len, offset, hread, ho, hlen, hmeq⟩ :=
    scanLoop_invoke_mem os opts pm ctx fuel opts.MinAddress 0 trace out h m hm
  subst hmeq
  refine ⟨?_, base, len, offset, hread, ho, rfl, rfl⟩
  simp only [List.length_take, List.length_drop] at hlen ⊢
  omega

/-- Witness for C8 on a concrete match of the scan over `os1`. -/
theorem C8_witness :
    (Match.mk 0 [65]).Data.length = pm41.patternLength ∧
    ∃ base len offset,
      Event.read base len ∈
        [Event.check 0 false, Event.query 0, Event.read 0 4,
         Event.check 1 false, Event.invoke ⟨0, [65]⟩,
         Event.check 2 false, Event.query 4, Event.read 4 4,
         Event.check 3 false, Event.invoke ⟨4, [65]⟩] ∧
      offset ∈ findMatches pm41 ((os1.readMem base len).take len) opts1.IgnoreCase ∧
      (Match.mk 0 [65]).Address = base + offset ∧
      (Match.mk 0 [65]).Data =
        (((os1.readMem base len).take len).drop offset).take pm41.patternLength :=
  C8_match_payload os1 (fun _ => false) opts1 3 pm41
    [Event.check 0 false, Event.query 0, Event.read 0 4,
     Event.check 1 false, Event.invoke ⟨0, [65]⟩,
     Event.check 2 false, Event.query 4, Event.read 4 4,
     Event.check 3 false, Event.invoke ⟨4, [65]⟩] ScanOutcome.ok
    (by decide) (by decide) ⟨0, [65]⟩ (by decide)

/-- C9 (amended): after a region the cursor moves to `base + size`, or
one unit further when the descriptor reports size zero; and provided
every descriptor returned by the query satisfies
`queried address < nextAddress descriptor` — which real `VirtualQueryEx`
descriptors do, since they cover the queried address — the cursor
strictly advances on every iteration and the walk terminates within
`MaxAddress - cursor` iterations.  (Without that contract a degenerate
descriptor regresses the cursor, see the counterexample.) -/
theorem C9_walk_termination (os : OS) (opts : ScanOptions)
    (pm : PatternMatcher) (ctx : Nat → Bool)
    (hq : ∀ a mbi, os.query a = some mbi → a < nextAddress mbi) :
    (∀ mbi : Region, mbi.RegionSize = 0 →
      nextAddress mbi = mbi.BaseAddress + mbi.RegionSize + 1) ∧
    (∀ mbi : Region, mbi.RegionSize ≠ 0 →
      nextAddress mbi = mbi.BaseAddress + mbi.RegionSize) ∧
    (∀ fuel address n, opts.MaxAddress - address < fuel →
      scanLoop os opts pm ctx fuel address n ≠ none) := by
  refine ⟨?_, ?_, ?_⟩
  · intro mbi hz; simp [nextAddress, hz]
  · intro mbi hz; simp [nextAddress, hz]
  · intro fuel
    induction fuel with
    | zero => intro address n hf; omega
    | succ fuel ih =>
      intro address n hf
      rcases scanLoop_succ_cases os opts pm ctx fuel address n with
        ⟨ha, heq⟩ | ⟨ha, hc, heq⟩ | ⟨ha, hc, hq2, heq⟩ |
        ⟨mbi, ha, hc, hq2, hr, hcanc, heq⟩ |
        ⟨mbi, ha, hc, hq2, hr, hcanc, ⟨hrec, heq⟩ | ⟨evs, out2, hrec, heq⟩⟩ |
        ⟨mbi, ha, hc, hq2, hr, ⟨hrec, heq⟩ | ⟨evs, out2, hrec, heq⟩⟩
      · rw [heq]; simp
      · rw [heq]; simp
      · rw [heq]; simp
      · rw [heq]; simp
      · have hprog := hq address mbi hq2
        exact absurd hrec (ih (nextAddress mbi) _ (by omega))
      · rw [heq]; simp
      · have hprog := hq address mbi hq2
        exact absurd hrec (ih (nextAddress mbi) (n + 1) (by omega))
      · rw [heq]; simp

/-- Witness for C9 with a query satisfying the descriptor contract. -/
theorem C9_witness :
    scanLoop osGood opts9 pm41 (fun _ => false) 4 5 0 ≠ none :=
  (C9_walk_termination osGood opts9 pm41 (fun _ => false)
    (fun a mbi h => by
      injection h with h'
      subst h'
      simp [nextAddress])).2.2 4 5 0 (by decide)

/-- Witness for C5: offset 0 matches pattern `41` in `A B A`, and the
empty pattern yields the empty result. -/
theorem C5_witness :
    0 ∈ findMatches pm41 [65, 66, 65] false ∧
    findMatches ⟨[], [], 0⟩ [1, 2] false = [] :=
  ⟨((C5_findMatches_characterization pm41 [65, 66, 65] false).1 0).mpr (by decide),
   (C5_findMatches_characterization ⟨[], [], 0⟩ [1, 2] false).2 (Or.inl rfl)⟩

/-- Witness for C6 at the input `We?` (bytes 87, 101, 63) with
`minLength` 5. -/
theorem C6_witness :
    stringToPatternTokens [] 7 = [] ∧
    (stringToPatternTokens [87, 101, 63] 5).length = max ([87, 101, 63] : List Nat).length 5 ∧
    (stringToPatternTokens [87, 101, 63] 5)[2]? =
      some (if ([87, 101, 63] : List Nat).getD 2 0 = 63 then "??"
        else byteToHex (([87, 101, 63] : List Nat).getD 2 0)) ∧
    (stringToPatternTokens [87, 101, 63] 5)[4]? = some "??" := by
  have h2 := (C6_stringToPattern_characterization [87, 101, 63] 5).2 (by decide)
  exact ⟨(C6_stringToPattern_characterization [] 7).1 rfl,
    h2.1, h2.2.1 2 (by decide), h2.2.2 4 (by decide) (by decide)⟩

/-- Witness for C10 on the overlapping-match example `41 41` in `AAA`
(offsets 0 and 1). -/
theorem C10_witness :
    List.Pairwise (· < ·) (findMatches pm41 [65, 66, 65] false) ∧
    List.Pairwise (· < ·)
      ((scanMatches opts1 pm41 (fun _ => false) 0 [65, 66, 65]
        (findMatches pm41 [65, 66, 65] false) 0).1.filterMap invokeAddress) :=
  ⟨(C10_matches_strictly_increasing pm41 [65, 66, 65] false).1,
   (C10_matches_strictly_increasing pm41 [65, 66, 65] false).2
     opts1 (fun _ => false) 0 0 rfl⟩

end MemoryScanner
